import Mathlib

/-!
Verification of the pooled fixed-capacity packet-buffer abstraction
(`src/src/packet.rs`): the `Packet` type, its operations `clear`, `resize`,
`truncate`, `extend`, the view operations, and `PacketPool::acquire`.

Bytes are modelled as `Nat` (they are only stored and copied, never
computed with, so no wrap-around arithmetic arises).  A buffer is a
`List Nat`; its length is the fixed capacity.  The fallible operations
(`resize`, `extend`), whose Rust originals `assert!` their capacity
precondition and abort on violation, return `Option Packet`: `none`
models the fatal failure.
-/

namespace Turbulence

/-- `Packet<B>` from `packet.rs`: an owned buffer plus a logical length. -/
structure Packet where
  buffer : List Nat
  len : Nat
deriving Repr, DecidableEq

/-- `BufferPool` trait: a buffer source.  Rust's `acquire(&self)` may have
internal effects (taking a buffer from a pool), modelled by explicit state
passing over a state type `S`. -/
structure BufferPool (S : Type) where
  acquire : S → List Nat × S

/-- `PacketPool<P>(P)`: a thin wrapper around one buffer source. -/
structure PacketPool (S : Type) where
  buffer_pool : BufferPool S

/-- `PacketPool::new`. -/
def PacketPool.new {S : Type} (p : BufferPool S) : PacketPool S :=
  PacketPool.mk p

/-- `PacketPool::acquire`: one call to the source's `acquire`, wrapping the
returned buffer with `len = 0`. -/
def PacketPool.acquire {S : Type} (pp : PacketPool S) (s : S) : Packet × S :=
  match pp.buffer_pool.acquire s with
  | (buf, s') => (Packet.mk buf 0, s')

/-- `Packet::capacity`: the fixed length of the underlying buffer. -/
def Packet.capacity (p : Packet) : Nat :=
  p.buffer.length

/-- `Packet::clear`: `self.len = 0`. -/
def Packet.clear (p : Packet) : Packet :=
  { p with len := 0 }

/-- The loop `for i in self.len..len { self.buffer[i] = val; }` from
`Packet::resize`, as a recursion on the iteration count: starting at index
`start`, set `count` consecutive entries to `v`. -/
def fillFrom (buf : List Nat) (start count v : Nat) : List Nat :=
  match count with
  | 0 => buf
  | c + 1 => fillFrom (buf.set start v) (start + 1) c v

/-- `Packet::resize`: asserts `len <= self.capacity()` (fatal on violation,
modelled as `none`), fills `buffer[self.len..len]` with `val`, sets the
length. -/
def Packet.resize (p : Packet) (len val : Nat) : Option Packet :=
  if len ≤ p.capacity then
    some (Packet.mk (fillFrom p.buffer p.len (len - p.len) val) len)
  else
    none

/-- `Packet::truncate`: `self.len = self.len.min(len)`. -/
def Packet.truncate (p : Packet) (len : Nat) : Packet :=
  { p with len := min p.len len }

/-- `copy_from_slice` into `buffer[start .. start + src.length]`: copy the
entries of `src` into `buf` starting at index `start`. -/
def copyFrom (buf : List Nat) (start : Nat) (src : List Nat) : List Nat :=
  match src with
  | [] => buf
  | x :: xs => copyFrom (buf.set start x) (start + 1) xs

/-- `Packet::extend`: asserts `self.len + other.len() <= self.capacity()`
(fatal on violation, modelled as `none`), copies `other` into
`buffer[self.len .. self.len + other.len()]`, advances the length. -/
def Packet.extend (p : Packet) (other : List Nat) : Option Packet :=
  if p.len + other.length ≤ p.capacity then
    some (Packet.mk (copyFrom p.buffer p.len other) (p.len + other.length))
  else
    none

/-- `Packet::as_slice`: returns `&self.buffer`, which deref-coerces to the
FULL underlying slice (length `capacity()`), not `buffer[0..len]`. -/
def Packet.as_slice (p : Packet) : List Nat :=
  p.buffer

/-- `Packet::as_mut_slice`: returns `&mut self.buffer`, again the full
underlying slice.  In the embedding the byte content exposed is the same
list as `as_slice`. -/
def Packet.as_mut_slice (p : Packet) : List Nat :=
  p.buffer

/-- `<Packet as Deref>::deref`: `&self.buffer[0..self.len]`.  The Rust
slice panics when `len > capacity`; under the packet invariant
(`len ≤ capacity`, which every reachable packet satisfies) it is the
prefix of length `len`, modelled by `List.take`. -/
def Packet.deref (p : Packet) : List Nat :=
  p.buffer.take p.len

/-- `<Packet as DerefMut>::deref_mut`: `&mut self.buffer[0..self.len]`;
the byte content exposed is the same prefix as `deref`. -/
def Packet.derefMut (p : Packet) : List Nat :=
  p.buffer.take p.len

/-- The packet invariant from the spec: `0 ≤ len ≤ capacity` (the lower
bound is inherent to `Nat`). -/
def Packet.inv (p : Packet) : Prop :=
  p.len ≤ p.capacity

instance (p : Packet) : Decidable p.inv :=
  inferInstanceAs (Decidable (p.len ≤ p.capacity))

/-! ### Helper lemmas about `fillFrom` and `copyFrom` -/

theorem length_fillFrom (count : Nat) :
    ∀ (buf : List Nat) (start v : Nat), (fillFrom buf start count v).length = buf.length := by
  induction count with
  | zero => intro buf start v; rfl
  | succ c ih =>
    intro buf start v
    rw [fillFrom, ih, List.length_set]

theorem fillFrom_getElem?_lt (count : Nat) :
    ∀ (buf : List Nat) (start v i : Nat), i < start →
      (fillFrom buf start count v)[i]? = buf[i]? := by
  induction count with
  | zero => intro buf start v i _; rfl
  | succ c ih =>
    intro buf start v i hi
    rw [fillFrom, ih _ _ _ _ (Nat.lt_succ_of_lt hi),
      List.getElem?_set_ne (Nat.ne_of_gt hi)]

theorem fillFrom_getElem?_ge (count : Nat) :
    ∀ (buf : List Nat) (start v i : Nat), start + count ≤ i →
      (fillFrom buf start count v)[i]? = buf[i]? := by
  induction count with
  | zero => intro buf start v i _; rfl
  | succ c ih =>
    intro buf start v i hi
    have h1 : start + 1 + c ≤ i := by omega
    have h2 : start ≠ i := by omega
    rw [fillFrom, ih _ _ _ _ h1, List.getElem?_set_ne h2]

theorem fillFrom_getElem?_mem (count : Nat) :
    ∀ (buf : List Nat) (start v i : Nat), start ≤ i → i < start + count →
      i < buf.length → (fillFrom buf start count v)[i]? = some v := by
  induction count with
  | zero => intro buf start v i h1 h2 _; omega
  | succ c ih =>
    intro buf start v i h1 h2 h3
    rw [fillFrom]
    rcases Nat.eq_or_lt_of_le h1 with heq | hlt
    · subst heq
      rw [fillFrom_getElem?_lt c _ _ _ _ (Nat.lt_succ_self start)]
      exact List.getElem?_set_eq_of_lt v h3
    · exact ih _ _ _ _ hlt (by omega) (by rw [List.length_set]; exact h3)

theorem length_copyFrom (src : List Nat) :
    ∀ (buf : List Nat) (start : Nat), (copyFrom buf start src).length = buf.length := by
  induction src with
  | nil => intro buf start; rfl
  | cons x xs ih =>
    intro buf start
    rw [copyFrom, ih, List.length_set]

theorem copyFrom_getElem?_lt (src : List Nat) :
    ∀ (buf : List Nat) (start i : Nat), i < start →
      (copyFrom buf start src)[i]? = buf[i]? := by
  induction src with
  | nil => intro buf start i _; rfl
  | cons x xs ih =>
    intro buf start i hi
    rw [copyFrom, ih _ _ _ (Nat.lt_succ_of_lt hi),
      List.getElem?_set_ne (Nat.ne_of_gt hi)]

theorem copyFrom_getElem?_ge (src : List Nat) :
    ∀ (buf : List Nat) (start i : Nat), start + src.length ≤ i →
      (copyFrom buf start src)[i]? = buf[i]? := by
  induction src with
  | nil => intro buf start i _; rfl
  | cons x xs ih =>
    intro buf start i hi
    have h1 : start + 1 + xs.length ≤ i := by simp at hi; omega
    have h2 : start ≠ i := by simp at hi; omega
    rw [copyFrom, ih _ _ _ h1, List.getElem?_set_ne h2]

theorem copyFrom_getElem?_mem (src : List Nat) :
    ∀ (buf : List Nat) (start i : Nat), i < src.length →
      start + i < buf.length → (copyFrom buf start src)[start + i]? = src[i]? := by
  induction src with
  | nil => intro buf start i hi _; simp at hi
  | cons x xs ih =>
    intro buf start i hi hlen
    rw [copyFrom]
    match i with
    | 0 =>
      rw [copyFrom_getElem?_lt xs _ _ _ (by omega)]
      simpa using List.getElem?_set_eq_of_lt x (by simpa using hlen)
    | j + 1 =>
      have h1 : start + (j + 1) = (start + 1) + j := by omega
      have h2 : j < xs.length := by simpa using hi
      have h3 : (start + 1) + j < (buf.set start x).length := by
        rw [List.length_set]; omega
      rw [h1, ih _ _ _ h2 h3]
      simp

theorem copyFrom_append (a : List Nat) :
    ∀ (b buf : List Nat) (start : Nat),
      copyFrom buf start (a ++ b) = copyFrom (copyFrom buf start a) (start + a.length) b := by
  induction a with
  | nil => intro b buf start; simp [copyFrom]
  | cons x xs ih =>
    intro b buf start
    have h : start + (xs.length + 1) = (start + 1) + xs.length := by omega
    simp only [List.cons_append, copyFrom, List.length_cons, h]
    exact ih b (buf.set start x) (start + 1)

/-! ### Claim theorems -/

/-- C7: for every packet in any prior state, `clear()` sets the logical
length to 0 and leaves every byte of the underlying buffer unchanged;
the only state component modified is `len`. -/
theorem clear_spec (p : Packet) :
    p.clear.len = 0 ∧ p.clear.buffer = p.buffer ∧ p.clear.capacity = p.capacity := by
  refine ⟨rfl, rfl, rfl⟩

/-- C5: for every packet and every `n` (no precondition on `n`),
`truncate(n)` sets `len` to `min(old_len, n)`, never increases the length,
and leaves all bytes — in particular all retained visible bytes below
`min(old_len, n)` — unchanged. -/
theorem truncate_spec (p : Packet) (n : Nat) :
    (p.truncate n).len = min p.len n ∧
    (p.truncate n).len ≤ p.len ∧
    (p.truncate n).buffer = p.buffer ∧
    ∀ i, i < min p.len n → (p.truncate n).deref[i]? = p.deref[i]? := by
  refine ⟨rfl, Nat.min_le_left _ _, rfl, ?_⟩
  intro i hi
  show (p.buffer.take (min p.len n))[i]? = (p.buffer.take p.len)[i]?
  rw [List.getElem?_take, List.getElem?_take]
  have h1 : i < min p.len n := hi
  have h2 : i < p.len := by omega
  simp [h1, h2]

/-- C9: `truncate` is idempotent: applying `truncate(n)` twice yields
exactly the same packet state (length and all buffer bytes) as once. -/
theorem truncate_idem (p : Packet) (n : Nat) :
    (p.truncate n).truncate n = p.truncate n := by
  show Packet.mk p.buffer (min (min p.len n) n) = Packet.mk p.buffer (min p.len n)
  have h : min (min p.len n) n = min p.len n := by omega
  rw [h]

/-- C8: `PacketPool::acquire` makes exactly one call to the held buffer
source's `acquire` (the resulting source state is exactly the state after
one call) and returns a packet wrapping the returned buffer with logical
length 0, whose visible content is empty. -/
theorem acquire_spec (S : Type) (pp : PacketPool S) (s : S) :
    (pp.acquire s).1.len = 0 ∧
    (pp.acquire s).1.buffer = (pp.buffer_pool.acquire s).1 ∧
    (pp.acquire s).2 = (pp.buffer_pool.acquire s).2 ∧
    (pp.acquire s).1.deref = [] := by
  refine ⟨rfl, rfl, rfl, ?_⟩
  show List.take 0 (pp.buffer_pool.acquire s).1 = []
  rfl

/-- C3: for every packet with logical length `old_len`, every `n ≤ capacity`
and fill byte `v`: `resize(n, v)` succeeds; afterwards the logical length is
`n`, every byte at index `i ∈ [old_len, n)` equals `v`, and every byte at
index `i < old_len` with `i < n` is unchanged (shrinking rewrites no
bytes). -/
theorem resize_spec (p : Packet) (n v : Nat) (h : n ≤ p.capacity) :
    (p.resize n v).isSome = true ∧
    ∀ q, p.resize n v = some q →
      q.len = n ∧
      (∀ i, p.len ≤ i → i < n → q.buffer[i]? = some v) ∧
      (∀ i, i < p.len → i < n → q.buffer[i]? = p.buffer[i]?) := by
  constructor
  · simp [Packet.resize, h]
  · intro q hq
    rw [Packet.resize, if_pos h] at hq
    injection hq with hq
    subst hq
    refine ⟨rfl, ?_, ?_⟩
    · intro i h1 h2
      have hc : p.capacity = p.buffer.length := rfl
      exact fillFrom_getElem?_mem (n - p.len) p.buffer p.len v i h1 (by omega)
        (by omega)
    · intro i h1 _
      exact fillFrom_getElem?_lt (n - p.len) p.buffer p.len v i h1

/-- Witness for C3: `resize(3, 7)` on the packet `⟨[9,0,0], len 1⟩`. -/
theorem resize_spec_witness :
    (Packet.mk [9,0,0] 1).capacity ≥ 3 ∧
    ((Packet.mk [9,0,0] 1).resize 3 7).isSome = true ∧
    ∀ q, (Packet.mk [9,0,0] 1).resize 3 7 = some q →
      q.len = 3 ∧
      (∀ i, (Packet.mk [9,0,0] 1).len ≤ i → i < 3 → q.buffer[i]? = some 7) ∧
      (∀ i, i < (Packet.mk [9,0,0] 1).len → i < 3 →
        q.buffer[i]? = (Packet.mk [9,0,0] 1).buffer[i]?) :=
  ⟨by decide, resize_spec (Packet.mk [9,0,0] 1) 3 7 (by decide)⟩

/-- C4: for every packet with logical length `old_len` and byte sequence `b`
with `old_len + |b| ≤ capacity`: `extend(b)` succeeds; afterwards the logical
length is `old_len + |b|`, the first `old_len` bytes are unchanged, and
bytes `[old_len, old_len + |b|)` equal `b` exactly. -/
theorem extend_spec (p : Packet) (b : List Nat) (h : p.len + b.length ≤ p.capacity) :
    (p.extend b).isSome = true ∧
    ∀ q, p.extend b = some q →
      q.len = p.len + b.length ∧
      (∀ i, i < p.len → q.buffer[i]? = p.buffer[i]?) ∧
      (∀ i, i < b.length → q.buffer[p.len + i]? = b[i]?) := by
  constructor
  · simp [Packet.extend, h]
  · intro q hq
    rw [Packet.extend, if_pos h] at hq
    injection hq with hq
    subst hq
    refine ⟨rfl, ?_, ?_⟩
    · intro i h1
      exact copyFrom_getElem?_lt b p.buffer p.len i h1
    · intro i h1
      have hc : p.capacity = p.buffer.length := rfl
      exact copyFrom_getElem?_mem b p.buffer p.len i h1 (by omega)

/-- Witness for C4: `extend([4,5])` on the packet `⟨[9,0,0], len 1⟩`. -/
theorem extend_spec_witness :
    (Packet.mk [9,0,0] 1).len + 2 ≤ (Packet.mk [9,0,0] 1).capacity ∧
    ((Packet.mk [9,0,0] 1).extend [4,5]).isSome = true ∧
    ∀ q, (Packet.mk [9,0,0] 1).extend [4,5] = some q →
      q.len = (Packet.mk [9,0,0] 1).len + ([4,5] : List Nat).length ∧
      (∀ i, i < (Packet.mk [9,0,0] 1).len →
        q.buffer[i]? = (Packet.mk [9,0,0] 1).buffer[i]?) ∧
      (∀ i, i < ([4,5] : List Nat).length →
        q.buffer[(Packet.mk [9,0,0] 1).len + i]? = ([4,5] : List Nat)[i]?) :=
  ⟨by decide, extend_spec (Packet.mk [9,0,0] 1) [4,5] (by decide)⟩

/-- C2: the invariant `0 ≤ len ≤ capacity` holds for every packet produced
by `PacketPool::acquire` (which establishes `len = 0`) and is preserved by
every public operation: `clear`, `resize` (under its precondition, i.e. when
it succeeds), `truncate`, and `extend` (under its precondition). -/
theorem inv_preserved :
    (∀ (S : Type) (pp : PacketPool S) (s : S), (pp.acquire s).1.inv) ∧
    (∀ p : Packet, p.clear.inv) ∧
    (∀ (p q : Packet) (n v : Nat), p.resize n v = some q → q.inv) ∧
    (∀ (p : Packet) (n : Nat), p.inv → (p.truncate n).inv) ∧
    (∀ (p q : Packet) (b : List Nat), p.extend b = some q → q.inv) := by
  refine ⟨?_, ?_, ?_, ?_, ?_⟩
  · intro S pp s
    exact Nat.zero_le _
  · intro p
    exact Nat.zero_le _
  · intro p q n v hq
    rw [Packet.resize] at hq
    by_cases h : n ≤ p.capacity
    · rw [if_pos h] at hq
      injection hq with hq
      subst hq
      show n ≤ (fillFrom p.buffer p.len (n - p.len) v).length
      rw [length_fillFrom]
      exact h
    · rw [if_neg h] at hq
      exact absurd hq (by simp)
  · intro p n h
    exact Nat.le_trans (Nat.min_le_left _ _) h
  · intro p q b hq
    rw [Packet.extend] at hq
    by_cases h : p.len + b.length ≤ p.capacity
    · rw [if_pos h] at hq
      injection hq with hq
      subst hq
      show p.len + b.length ≤ (copyFrom p.buffer p.len b).length
      rw [length_copyFrom]
      exact h
    · rw [if_neg h] at hq
      exact absurd hq (by simp)

/-- Witness for C2: each conjunct instantiated at a concrete packet
(`⟨[5,6], len 1⟩` and its images under the operations). -/
theorem inv_preserved_witness :
    ((PacketPool.new (BufferPool.mk fun (s : Nat) => ([5,6], s + 1))).acquire 0).1.inv ∧
    (Packet.mk [5,6] 1).clear.inv ∧
    (Packet.mk [0,7] 2).inv ∧
    ((Packet.mk [5,6] 1).truncate 0).inv ∧
    (Packet.mk [5,4] 2).inv :=
  ⟨inv_preserved.1 Nat _ 0,
   inv_preserved.2.1 (Packet.mk [5,6] 1),
   inv_preserved.2.2.1 (Packet.mk [0,0] 1) (Packet.mk [0,7] 2) 2 7 (by decide),
   inv_preserved.2.2.2.1 (Packet.mk [5,6] 1) 0 (by decide),
   inv_preserved.2.2.2.2 (Packet.mk [5,6] 1) (Packet.mk [5,4] 2) [4] (by decide)⟩

/-- C6: `resize` with a target length strictly greater than `capacity`, and
`extend` with `|b| > capacity - len` (for any packet satisfying the
invariant), fail fatally: the operation aborts with `none` and in particular
never returns a packet with a silently clamped, truncated, or wrapped
length. -/
theorem capacity_violation (p : Packet) (n v : Nat) (b : List Nat) :
    (p.capacity < n → p.resize n v = none) ∧
    (p.inv → p.capacity - p.len < b.length → p.extend b = none) := by
  constructor
  · intro h
    rw [Packet.resize, if_neg (by omega)]
  · intro hinv h
    have hinv' : p.len ≤ p.capacity := hinv
    rw [Packet.extend, if_neg (by omega)]

/-- Witness for C6: `resize(3, 0)` and `extend([8,8,8])` on the packet
`⟨[5,6], len 1⟩` of capacity 2 both abort. -/
theorem capacity_violation_witness :
    ((Packet.mk [5,6] 1).capacity < 3 → (Packet.mk [5,6] 1).resize 3 0 = none) ∧
    ((Packet.mk [5,6] 1).inv →
      (Packet.mk [5,6] 1).capacity - (Packet.mk [5,6] 1).len < ([8,8,8] : List Nat).length →
      (Packet.mk [5,6] 1).extend [8,8,8] = none) :=
  capacity_violation (Packet.mk [5,6] 1) 3 0 [8,8,8]

/-- C10: `extend` is a homomorphism with respect to concatenation:
`extend(a)` followed by `extend(b)` yields exactly the same packet state
(and the same success/failure) as `extend(a ++ b)`; consequently `extend`
of the empty sequence leaves any packet satisfying the invariant
unchanged. -/
theorem extend_append (p : Packet) (a b : List Nat) :
    (p.extend a).bind (fun q => q.extend b) = p.extend (a ++ b) ∧
    (p.inv → p.extend [] = some p) := by
  constructor
  · rw [Packet.extend]
    by_cases h : p.len + a.length ≤ p.capacity
    · rw [if_pos h]
      show Packet.extend _ b = _
      have hcap : (Packet.mk (copyFrom p.buffer p.len a) (p.len + a.length)).capacity
          = p.capacity := by
        show (copyFrom p.buffer p.len a).length = p.buffer.length
        exact length_copyFrom a p.buffer p.len
      rw [Packet.extend, Packet.extend, hcap]
      by_cases h2 : p.len + a.length + b.length ≤ p.capacity
      · rw [if_pos h2, if_pos (by simp only [List.length_append]; omega)]
        have hbuf : copyFrom (copyFrom p.buffer p.len a) (p.len + a.length) b
            = copyFrom p.buffer p.len (a ++ b) := (copyFrom_append a b p.buffer p.len).symm
        simp only [hbuf, List.length_append]
        have hlen : p.len + a.length + b.length = p.len + (a.length + b.length) := by omega
        rw [hlen]
      · rw [if_neg h2, if_neg (by simp only [List.length_append]; omega)]
    · rw [if_neg h]
      show none = Packet.extend p (a ++ b)
      rw [Packet.extend, if_neg (by simp only [List.length_append]; omega)]
  · intro hinv
    have hinv' : p.len ≤ p.capacity := hinv
    rw [Packet.extend, if_pos (by simpa using hinv'), copyFrom]
    rfl

/-- Witness for C10: `extend([2]); extend([3])` equals `extend([2,3])` on
`⟨[9,0,0], len 1⟩`, and `extend([])` leaves it unchanged. -/
theorem extend_append_witness :
    ((Packet.mk [9,0,0] 1).extend [2]).bind (fun q => q.extend [3])
        = (Packet.mk [9,0,0] 1).extend ([2] ++ [3]) ∧
    ((Packet.mk [9,0,0] 1).inv → (Packet.mk [9,0,0] 1).extend [] = some (Packet.mk [9,0,0] 1)) :=
  extend_append (Packet.mk [9,0,0] 1) [2] [3]

/-- C1 counterexample: the packet `⟨[7,7], len 1⟩` (capacity 2, invariant
holds) refutes the claim that EVERY view operation has length `len`:
`as_slice` returns the full underlying buffer, of length 2 ≠ 1, and its
contents are not `buffer[0..len]` (`as_mut_slice` is the same list). -/
theorem views_cex :
    (Packet.mk [7,7] 1).inv ∧
    (Packet.mk [7,7] 1).as_slice.length ≠ (Packet.mk [7,7] 1).len ∧
    (Packet.mk [7,7] 1).as_mut_slice.length ≠ (Packet.mk [7,7] 1).len ∧
    (Packet.mk [7,7] 1).as_slice ≠ (Packet.mk [7,7] 1).buffer.take (Packet.mk [7,7] 1).len := by
  refine ⟨by decide, by decide, by decide, by decide⟩

/-- C1 amended: for every packet satisfying the invariant, the views
exposed by `deref` and `deref_mut` have length exactly `len` and contents
exactly `buffer[0..len]`; `as_slice` and `as_mut_slice` instead expose the
entire underlying buffer, of length `capacity()`. -/
theorem views_spec (p : Packet) (h : p.inv) :
    p.deref.length = p.len ∧
    (∀ i, i < p.len → p.deref[i]? = p.buffer[i]?) ∧
    p.derefMut = p.deref ∧
    p.as_slice = p.buffer ∧
    p.as_mut_slice = p.buffer ∧
    p.as_slice.length = p.capacity := by
  have h' : p.len ≤ p.buffer.length := h
  refine ⟨?_, ?_, rfl, rfl, rfl, rfl⟩
  · show (p.buffer.take p.len).length = p.len
    rw [List.length_take]
    omega
  · intro i hi
    show (p.buffer.take p.len)[i]? = p.buffer[i]?
    rw [List.getElem?_take]
    simp [hi]

/-- Witness for C1 (amended): the packet `⟨[5,6,7], len 2⟩`. -/
theorem views_spec_witness :
    (Packet.mk [5,6,7] 2).inv ∧
    ((Packet.mk [5,6,7] 2).deref.length = (Packet.mk [5,6,7] 2).len ∧
     (∀ i, i < (Packet.mk [5,6,7] 2).len →
       (Packet.mk [5,6,7] 2).deref[i]? = (Packet.mk [5,6,7] 2).buffer[i]?) ∧
     (Packet.mk [5,6,7] 2).derefMut = (Packet.mk [5,6,7] 2).deref ∧
     (Packet.mk [5,6,7] 2).as_slice = (Packet.mk [5,6,7] 2).buffer ∧
     (Packet.mk [5,6,7] 2).as_mut_slice = (Packet.mk [5,6,7] 2).buffer ∧
     (Packet.mk [5,6,7] 2).as_slice.length = (Packet.mk [5,6,7] 2).capacity) :=
  ⟨by decide, views_spec (Packet.mk [5,6,7] 2) (by decide)⟩

end Turbulence
